import Mathlib

/-!
Shallow embedding of `src/be-music-cabinet/src/options/root_bigpack.rs`.

Names of directory entries are modelled as Lean `String`s (sequences of
Unicode scalar values, exactly as Rust `String`s of valid UTF-8).  Byte
indices, where the Rust code uses them (`str::rfind` returns a byte
offset and `&s[..i]` slices at byte offsets, panicking on non-boundary
or out-of-range indices), are computed explicitly via `Char.utf8Size`.

Filesystem interaction is factored out: each operation is embedded as a
pure function of the directory listing it reads (plus the confirmation
line read from the terminal), returning the list of merge/delete actions
it would drive through the external primitives, together with its
`io::Result` outcome.  A Rust panic (integer-underflow / string-slice
panic) is a distinct outcome constructor.
-/

namespace RootBigpack

/-- Rust `char::is_ascii_digit`. -/
def isAsciiDigit (c : Char) : Bool := decide ('0' ≤ c ∧ c ≤ '9')

/-- Rust `char::to_ascii_uppercase`: maps `'a'..='z'` to upper case and
leaves every other character unchanged. -/
def asciiUpper (c : Char) : Char :=
  if 'a' ≤ c ∧ c ≤ 'z' then Char.ofNat (c.toNat - 32) else c

/-- Rust `name.chars().next().map(p).unwrap_or(false)`: test the first
character of a string, `false` for the empty string. -/
def firstCharTest (p : Char → Bool) (name : String) : Bool :=
  (name.data.head?.map p).getD false

/-- The ordered rule list `FIRST_CHAR_RULES` (lines 27-113 of the source):
pairs of bucket label and predicate over the whole name (each predicate
examines only the first character, except the final `"+"` rule which
tests non-emptiness).  The three script rules mirror the regexes
`[぀-ゟ]+`, `[゠-ヿ]+`, `[一-龥]+` applied to the
one-character string of the first character, i.e. a code-point range test. -/
def FIRST_CHAR_RULES : List (String × (String → Bool)) :=
  [("0-9", firstCharTest (fun c => isAsciiDigit c)),
   ("ABCD", firstCharTest (fun c => decide ('A' ≤ asciiUpper c ∧ asciiUpper c ≤ 'D'))),
   ("EFGHIJK", firstCharTest (fun c => decide ('E' ≤ asciiUpper c ∧ asciiUpper c ≤ 'K'))),
   ("LMNOPQ", firstCharTest (fun c => decide ('L' ≤ asciiUpper c ∧ asciiUpper c ≤ 'Q'))),
   ("RST", firstCharTest (fun c => decide ('R' ≤ asciiUpper c ∧ asciiUpper c ≤ 'T'))),
   ("UVWXYZ", firstCharTest (fun c => decide ('U' ≤ asciiUpper c ∧ asciiUpper c ≤ 'Z'))),
   ("平假", firstCharTest (fun c => decide (0x3040 ≤ c.toNat ∧ c.toNat ≤ 0x309f))),
   ("片假", firstCharTest (fun c => decide (0x30a0 ≤ c.toNat ∧ c.toNat ≤ 0x30ff))),
   ("字", firstCharTest (fun c => decide (0x4e00 ≤ c.toNat ∧ c.toNat ≤ 0x9fa5))),
   ("+", fun name => !name.data.isEmpty)]

/-- The `for rule in FIRST_CHAR_RULES { if (rule.func)(name) { return rule.name } }`
loop: first matching rule wins, fallthrough result is the last argument. -/
def rulesFind : List (String × (String → Bool)) → String → String
  | [], _ => "Uncategorized"
  | r :: rest, name => if r.2 name then r.1 else rulesFind rest name

/-- `first_char_rules_find` (source lines 115-122). -/
def first_char_rules_find (name : String) : String :=
  rulesFind FIRST_CHAR_RULES name

/-! ## Byte-index string primitives

Rust `str::rfind(char)` yields the BYTE offset of the last occurrence,
and `&s[..i]` slices at byte offsets, panicking when `i` is larger than
the length or not a character boundary. -/

/-- Worker for `rfindByteIdx`: walks the characters keeping the current
byte offset, remembering the offset of the last occurrence seen. -/
def rfindAux (t : Char) : List Char → Nat → Option Nat → Option Nat
  | [], _, acc => acc
  | c :: rest, pos, acc =>
    rfindAux t rest (pos + c.utf8Size) (if c = t then some pos else acc)

/-- Rust `s.rfind(t)`: byte offset of the last occurrence of character `t`. -/
def rfindByteIdx (s : List Char) (t : Char) : Option Nat :=
  rfindAux t s 0 none

/-- Rust `&s[..n]` at byte offset `n`: `some` prefix when `n` is a
character boundary within the string, `none` (a panic) otherwise. -/
def takeBytes : List Char → Nat → Option (List Char)
  | _, 0 => some []
  | [], _ + 1 => none
  | c :: rest, n + 1 =>
    if c.utf8Size ≤ n + 1 then (takeBytes rest (n + 1 - c.utf8Size)).map (fun l => c :: l)
    else none

/-- Rust `name.ends_with(']')`. -/
def endsWithRB (s : String) : Bool := s.data.getLast? == some ']'

/-! ## Bucket Merger variant B — `merge_split_folders` (source lines 226-330) -/

/-- Base-name extraction for one bucketed child (source lines 252-256):
`dir_name.rfind('[')` followed by `&dir_name[..bracket_pos - 1]`.
`Except.error ()` is a Rust panic: either `bracket_pos` is `0` and the
`usize` subtraction underflows (debug panic; in release it wraps and the
slice end is out of range, also a panic), or `bracket_pos - 1` is not a
character boundary and the slice panics.  `Except.ok none` means no `[`
was found (the entry is skipped). -/
def extractBase (name : String) : Except Unit (Option String) :=
  match rfindByteIdx name.data '[' with
  | none => Except.ok none
  | some 0 => Except.error ()
  | some (pos + 1) =>
    match takeBytes name.data pos with
    | none => Except.error ()
    | some pre => Except.ok (some (String.mk pre))

/-- Source line 265-268: how many sibling directory names start with
`"<base> ["`. -/
def countStarter (dirNames : List String) (base : String) : Nat :=
  (dirNames.filter (fun n => (base ++ " [").data.isPrefixOf n.data)).length

/-- What `merge_split_folders` does with one element of `dir_names`
(source lines 243-281). -/
inductive EntryOutcome where
  /-- The iteration panics (byte-index underflow or non-boundary slice). -/
  | panic
  /-- The entry is skipped silently: name does not end in `]`, has no
  `[`, yields an empty base name, or the base directory is missing. -/
  | noPair
  /-- The entry is skipped with the ambiguity warning (`> 2` siblings
  share the `"<base> ["` prefix). -/
  | warned
  /-- The pair `(target, base)` is appended to `pairs`
  (source line 279: `pairs.push((dir_name, dir_name_without_artist))`). -/
  | paired (target base : String)
  deriving DecidableEq

/-- One iteration of the pair-collection loop of `merge_split_folders`
(source lines 243-281).  `dirNames` is the listing of direct child
directories of the root: a joined child path `root_dir.join(b)` is a
directory exactly when `b` is in that listing, so both `is_dir` re-checks
are modelled as membership in `dirNames`. -/
def entryOutcome (dirNames : List String) (name : String) : EntryOutcome :=
  if endsWithRB name then
    match extractBase name with
    | Except.error _ => EntryOutcome.panic
    | Except.ok none => EntryOutcome.noPair
    | Except.ok (some base) =>
      if base = "" then EntryOutcome.noPair
      else if base ∈ dirNames then
        if 2 < countStarter dirNames base then EntryOutcome.warned
        else EntryOutcome.paired name base
      else EntryOutcome.noPair
  else EntryOutcome.noPair

/-- The pair-collection loop, accumulating `pairs` in push order; a
panic in any iteration aborts the whole run. -/
def collectPairsAux (dirNames : List String) :
    List String → List (String × String) → Except Unit (List (String × String))
  | [], acc => Except.ok acc
  | n :: rest, acc =>
    match entryOutcome dirNames n with
    | EntryOutcome.panic => Except.error ()
    | EntryOutcome.paired t b => collectPairsAux dirNames rest (acc ++ [(t, b)])
    | _ => collectPairsAux dirNames rest acc

/-- The complete pair-collection phase of `merge_split_folders`:
iterate over `dir_names`, each iteration consulting the full listing. -/
def collectPairs (dirNames : List String) : Except Unit (List (String × String)) :=
  collectPairsAux dirNames dirNames []

/-- The duplicate scan of source lines 284-292: `last_from_dir_name`
starts as the empty string and each pair whose second component equals
the previous one is pushed onto `duplicate_list`. -/
def duplicateListAux (last : String) : List String → List String
  | [] => []
  | x :: rest => (if last = x then [x] else []) ++ duplicateListAux x rest

/-- `duplicate_list` computed from the second components of `pairs`. -/
def duplicateList (l : List String) : List String := duplicateListAux "" l

/-! ## Confirmation gate -/

/-- Rust `char::is_whitespace`: the Unicode `White_Space` code points. -/
def isRustWhitespace (c : Char) : Bool :=
  c.toNat ∈ [0x09, 0x0a, 0x0b, 0x0c, 0x0d, 0x20, 0x85, 0xa0, 0x1680,
    0x2000, 0x2001, 0x2002, 0x2003, 0x2004, 0x2005, 0x2006, 0x2007,
    0x2008, 0x2009, 0x200a, 0x2028, 0x2029, 0x202f, 0x205f, 0x3000]

/-- Rust `input.trim()`: strip leading and trailing whitespace. -/
def rustTrim (s : String) : String :=
  String.mk (((s.data.dropWhile isRustWhitespace).reverse.dropWhile isRustWhitespace).reverse)

/-- `input.trim().to_lowercase().starts_with('y')` (source lines
207, 311, 689).  `'y'` and `'Y'` are the only Unicode scalar values whose
`to_lowercase` expansion begins with `'y'`, so the test is equivalent to
the first character of the trimmed line being `'y'` or `'Y'`. -/
def confirmGate (input : String) : Bool :=
  match (rustTrim input).data with
  | [] => false
  | c :: _ => c == 'y' || c == 'Y'

/-! ## Whole-operation outcomes -/

/-- `io::Result<()>` of one operation. -/
inductive OpResult where
  | ok
  | error (msg : String)
  deriving DecidableEq

/-- Outcome of one confirmation-gated batch operation: either a panic, or
a normal finish carrying the merges `(source, destination)` that were
driven through `move_elements_across_dir`, in execution order, together
with the returned `io::Result`. -/
inductive MergeRun where
  | panic
  | finished (executed : List (String × String)) (result : OpResult)
  deriving DecidableEq

/-- `merge_split_folders` (source lines 226-330) as a function of the
root's child-directory listing and the confirmation line: collect pairs,
abort on a duplicate second component, prompt, and on an affirmative
answer execute, for each pair `(target, from)`, the merge
`move_elements_across_dir(root/from, root/target)` — note the executed
source is the pair's SECOND component (the un-bucketed base name) and
the destination its FIRST component (the bucketed name), per the
destructuring `for (target_dir_name, from_dir_name) in pairs` at
source lines 316-327. -/
def mergeSplitRun (dirNames : List String) (input : String) : MergeRun :=
  match collectPairs dirNames with
  | Except.error _ => MergeRun.panic
  | Except.ok ps =>
    if (duplicateList (ps.map (fun p => p.2))).isEmpty then
      if confirmGate input then
        MergeRun.finished (ps.map (fun p => (p.2, p.1))) OpResult.ok
      else MergeRun.finished [] OpResult.ok
    else MergeRun.finished [] (OpResult.error "Duplicate folders found")

/-! ## Bucket Merger variant A — `undo_split_pack` (source lines 173-223) -/

/-- `undo_split_pack` as a function of the root folder name, the listing
of the parent directory, and the confirmation line.  Siblings named
`"<root> [...]"` ending in `]` are merge sources with the root as the
common destination; with no candidates the run succeeds trivially before
prompting. -/
def undoSplitRun (rootName : String) (siblingNames : List String) (input : String) : MergeRun :=
  let pairs := siblingNames.filter
    (fun n => (rootName ++ " [").data.isPrefixOf n.data && endsWithRB n)
  if pairs.isEmpty then MergeRun.finished [] OpResult.ok
  else if confirmGate input then
    MergeRun.finished (pairs.map (fun n => (n, rootName))) OpResult.ok
  else MergeRun.finished [] OpResult.ok

/-! ## Same-Name Merger — `move_works_with_same_name` (source lines 613-711) -/

/-- Substring containment of `needle` in `hay` (Rust `str::contains`
with a `&str` pattern; byte-level search coincides with character-level
infix search on valid UTF-8). -/
def containsSub (needle : List Char) : List Char → Bool
  | [] => needle.isPrefixOf []
  | c :: t => needle.isPrefixOf (c :: t) || containsSub needle t

/-- `to_dir_name.contains(from_dir_name)` (source line 668). -/
def strContains (hay needle : String) : Bool :=
  containsSub needle.data hay.data

/-- The pairing loop of `move_works_with_same_name` (source lines
660-679): for each source subfolder, the first destination subfolder (in
destination listing order) whose name contains the source name yields a
pair; a source with no containing destination yields nothing. -/
def pairSameName (froms tos : List String) : List (String × String) :=
  froms.filterMap
    (fun f => (tos.find? (fun t => strContains t f)).map (fun t => (f, t)))

/-- `move_works_with_same_name` as a function of the two listings and
the confirmation line (the two `is_dir` precondition checks on the roots
precede the listings and are modelled away). -/
def sameNameRun (froms tos : List String) (input : String) : MergeRun :=
  if confirmGate input then MergeRun.finished (pairSameName froms tos) OpResult.ok
  else MergeRun.finished [] OpResult.ok

/-! ## Dedup Evaluator — `workdir_remove_unneed_media_files` (source lines 435-531) -/

/-- ASCII lower-casing of one character.  `str::to_lowercase` applies
the full Unicode mapping; every extension any rule table mentions is
ASCII, where the mapping is the one modelled here. -/
def toLowerAsciiChar (c : Char) : Char :=
  if 'A' ≤ c ∧ c ≤ 'Z' then Char.ofNat (c.toNat + 32) else c

/-- `file_name.rsplit('.').next().unwrap_or("")` (source lines 451, 511):
the segment after the last `.`, or the whole name when there is no `.`
(`rsplit` always yields at least one segment, so the `unwrap_or` arm is
dead). -/
def rsplitNextDot (s : List Char) : List Char :=
  (s.reverse.takeWhile (fun c => c ≠ '.')).reverse

/-- The lowercased extension the evaluator computes for a file name. -/
def fileExt (name : String) : String :=
  String.mk ((rsplitNextDot name.data).map toLowerAsciiChar)

/-- Last index `≥ 1` holding character `t` (Rust
`slice[1..].iter().rposition(..)` shifted back to an index into the full
name; a `.` byte in UTF-8 is always a full character, so byte and
character positions coincide for locating dots). -/
def rposAux (t : Char) : List Char → Nat → Option Nat → Option Nat
  | [], _, acc => acc
  | c :: rest, i, acc => rposAux t rest (i + 1) (if c = t then some i else acc)

/-- Rust `split_file_at_dot`: file stem and optional extension.  A name
of `..` and a last dot at position `0` both leave the whole name as the
stem with no extension. -/
def splitFileAtDot (s : List Char) : List Char × Option (List Char) :=
  if s = ['.', '.'] then (s, none)
  else
    match s with
    | [] => (s, none)
    | _ :: rest =>
      match rposAux '.' rest 0 none with
      | none => (s, none)
      | some j => (s.take (j + 1), some (s.drop (j + 2)))

/-- Rust `Path::with_extension` restricted to the file-name component
(source line 467 always passes a non-empty extension): the stem followed
by `.` and the new extension. -/
def withExtension (name : String) (ext : String) : String :=
  let stem := (splitFileAtDot name.data).1
  if ext = "" then String.mk stem else String.mk (stem ++ '.' :: ext.data)

/-- Inner loop over `lower_exts` (source lines 466-478): for each
inferior extension, the counterpart path must exist on disk (`ex`) and
not already be scheduled; then the pair `(reason file, file to delete)`
is pushed and the target marked scheduled. -/
def procLowers (fname : String) (ex : String → Bool) :
    List String → List (String × String) → List String →
      List (String × String) × List String
  | [], pairs, removed => (pairs, removed)
  | l :: rest, pairs, removed =>
    let cand := withExtension fname l
    if ex cand ∧ cand ∉ removed then
      procLowers fname ex rest (pairs ++ [(fname, cand)]) (cand :: removed)
    else procLowers fname ex rest pairs removed

/-- Middle loop over the rule table (source lines 453-479): a rule
applies when the file's extension is among its superior extensions; a
zero-length file is skipped (`continue`) before any counterpart is
considered. -/
def procRules (fname : String) (sz : Nat) (ex : String → Bool) :
    List (List String × List String) → List (String × String) → List String →
      List (String × String) × List String
  | [], pairs, removed => (pairs, removed)
  | (uppers, lowers) :: rest, pairs, removed =>
    if fileExt fname ∈ uppers then
      if sz = 0 then procRules fname sz ex rest pairs removed
      else
        let pr := procLowers fname ex lowers pairs removed
        procRules fname sz ex rest pr.1 pr.2
    else procRules fname sz ex rest pairs removed

/-- Outer loop over the work folder's regular files, each given as
`(name, size)` (source lines 442-480). -/
def evalDedupAux (rules : List (List String × List String)) (ex : String → Bool) :
    List (String × Nat) → List (String × String) → List String →
      List (String × String) × List String
  | [], pairs, removed => (pairs, removed)
  | (n, sz) :: rest, pairs, removed =>
    let pr := procRules n sz ex rules pairs removed
    evalDedupAux rules ex rest pr.1 pr.2

/-- The full evaluation pass: `remove_pairs` as
`(reason file, file scheduled for deletion)` tuples in push order. -/
def evalDedup (rules : List (List String × List String))
    (files : List (String × Nat)) (ex : String → Bool) : List (String × String) :=
  (evalDedupAux rules ex files [] []).1

/-- `get_remove_media_rule_oraja` (source lines 533-555). -/
def get_remove_media_rule_oraja : List (List String × List String) :=
  [(["mp4"], ["avi", "wmv", "mpg", "mpeg"]),
   (["avi"], ["wmv", "mpg", "mpeg"]),
   (["flac", "wav"], ["ogg"]),
   (["flac"], ["wav"]),
   (["mpg"], ["wmv"])]

/-- The post-pass diagnostic (source lines 499-528) keys the recount by
the same `fileExt`; the entry at key `"mp4"` holds exactly the file
names whose computed extension is `"mp4"`, so its length is the length
of this filter. -/
def mp4Files (files : List String) : List String :=
  files.filter (fun n => fileExt n = "mp4")

/-- Invariant of the dedup evaluation pass: the scheduled targets are
pairwise distinct and every one of them is in the `removed_files` set. -/
def schedInv (pairs : List (String × String)) (removed : List String) : Prop :=
  (pairs.map (fun p => p.2)).Nodup ∧ ∀ x ∈ pairs.map (fun p => p.2), x ∈ removed

/-! # Lemmas -/

theorem entryOutcome_paired {dirNames : List String} {name t b : String}
    (h : entryOutcome dirNames name = EntryOutcome.paired t b) :
    t = name ∧ endsWithRB name = true := by
  unfold entryOutcome at h
  split at h
  case isTrue hEnd =>
    split at h
    · exact absurd h (by simp)
    · exact absurd h (by simp)
    · split at h
      · exact absurd h (by simp)
      · split at h
        · split at h
          · exact absurd h (by simp)
          · injection h with h1 h2
            exact ⟨h1.symm, hEnd⟩
        · exact absurd h (by simp)
  case isFalse hEnd => exact absurd h (by simp)

theorem collectPairsAux_mem {dirNames : List String} :
    ∀ (l : List String) (acc ps : List (String × String)),
      collectPairsAux dirNames l acc = Except.ok ps →
      ∀ p ∈ ps, p ∈ acc ∨ ∃ name, entryOutcome dirNames name = EntryOutcome.paired p.1 p.2 := by
  intro l
  induction l with
  | nil =>
    intro acc ps h p hp
    simp only [collectPairsAux] at h
    injection h with h
    exact Or.inl (h ▸ hp)
  | cons n rest ih =>
    intro acc ps h p hp
    simp only [collectPairsAux] at h
    rcases ho : entryOutcome dirNames n with _ | _ | _ | ⟨t, b⟩ <;> rw [ho] at h
    · exact absurd (show (Except.error () : Except Unit (List (String × String))) =
        Except.ok ps from h) (by simp)
    · exact ih acc ps (show collectPairsAux dirNames rest acc = Except.ok ps from h) p hp
    · exact ih acc ps (show collectPairsAux dirNames rest acc = Except.ok ps from h) p hp
    · have h' : collectPairsAux dirNames rest (acc ++ [(t, b)]) = Except.ok ps := h
      rcases ih (acc ++ [(t, b)]) ps h' p hp with hmem | hex
      · rcases List.mem_append.mp hmem with h1 | h1
        · exact Or.inl h1
        · refine Or.inr ⟨n, ?_⟩
          rw [List.mem_singleton.mp h1]
          exact ho
      · exact Or.inr hex

theorem mergeSplitRun_ok {dirNames : List String} (input : String)
    {ps : List (String × String)} (hc : collectPairs dirNames = Except.ok ps) :
    mergeSplitRun dirNames input =
      if (duplicateList (ps.map (fun p => p.2))).isEmpty then
        if confirmGate input then
          MergeRun.finished (ps.map (fun p => (p.2, p.1))) OpResult.ok
        else MergeRun.finished [] OpResult.ok
      else MergeRun.finished [] (OpResult.error "Duplicate folders found") := by
  unfold mergeSplitRun
  rw [hc]

theorem duplicateListAux_ne_nil (a : String) :
    ∀ (l1 l2 : List String) (last : String),
      duplicateListAux last (l1 ++ a :: a :: l2) ≠ [] := by
  intro l1
  induction l1 with
  | nil =>
    intro l2 last
    simp only [List.nil_append, duplicateListAux]
    intro h
    rcases List.append_eq_nil.mp h with ⟨_, h2⟩
    rcases List.append_eq_nil.mp h2 with ⟨h3, _⟩
    simp at h3
  | cons x xs ih =>
    intro l2 last
    simp only [List.cons_append, duplicateListAux]
    intro h
    exact ih l2 x (List.append_eq_nil.mp h).2

/-! # Claims -/

/-- Claim C1, counterexample.  With children `"Foo"` and `"Foo [ABCD]"`
and an affirmative confirmation, variant B records the single pair
`("Foo [ABCD]", "Foo")` but executes the merge with SOURCE `"Foo"` (the
un-bucketed base-name folder) and DESTINATION `"Foo [ABCD]"` (the
bucketed child) — the executed merge list does not contain the merge
the claim describes, whose source would be the bucketed child. -/
theorem C1_counterexample :
    collectPairs ["Foo", "Foo [ABCD]"] = Except.ok [("Foo [ABCD]", "Foo")] ∧
    mergeSplitRun ["Foo", "Foo [ABCD]"] "y" =
      MergeRun.finished [("Foo", "Foo [ABCD]")] OpResult.ok ∧
    ("Foo [ABCD]", "Foo") ∉ [(("Foo" : String), ("Foo [ABCD]" : String))] :=
  ⟨rfl, by decide, by decide⟩

/-- Claim C1, amended.  Every confirmed pair of variant B is executed as
a merge whose SOURCE is the un-bucketed base-name folder (the pair's
second component) and whose DESTINATION is the bucketed child folder
(the pair's first component, whose name ends with `]`): contents of the
base-name folder are moved into the bucketed child, not the other way
around. -/
theorem C1_amended :
    ∀ (dirNames : List String) (input : String) (ps : List (String × String)),
      collectPairs dirNames = Except.ok ps →
      duplicateList (ps.map (fun p => p.2)) = [] →
      confirmGate input = true →
      mergeSplitRun dirNames input =
        MergeRun.finished (ps.map (fun p => (p.2, p.1))) OpResult.ok ∧
      ∀ p ∈ ps, endsWithRB p.1 = true := by
  intro dirNames input ps hc hd hg
  constructor
  · rw [mergeSplitRun_ok input hc, hd]
    simp only [List.isEmpty_nil, if_true, hg]
  · intro p hp
    rcases collectPairsAux_mem dirNames [] ps hc p hp with hmem | ⟨name, hn⟩
    · exact absurd hmem (List.not_mem_nil p)
    · rcases entryOutcome_paired hn with ⟨ht, hEnd⟩
      rw [ht]
      exact hEnd

/-- Claim C1, witness for the amended theorem. -/
theorem C1_witness :
    mergeSplitRun ["Bar", "Bar [RST]"] "y" =
      MergeRun.finished [("Bar", "Bar [RST]")] OpResult.ok ∧
    endsWithRB "Bar [RST]" = true :=
  have h := C1_amended ["Bar", "Bar [RST]"] "y" [("Bar [RST]", "Bar")] rfl rfl (by decide)
  ⟨h.1, h.2 ("Bar [RST]", "Bar") (by decide)⟩

/-- Claim C2: on the listing `["Foo", "Foo [ABCD]", "Foo [RST]"]` the
pair-collection phase produces exactly the pairs
`("Foo [ABCD]", "Foo")` and `("Foo [RST]", "Foo")`; and for a candidate
that ends in `]`, extracts a non-empty base name and finds the base
directory among the children, the ambiguity skip-and-warn fires if and
only if strictly more than 2 sibling names start with `"<base> ["`. -/
theorem C2_pairs_and_ambiguity :
    collectPairs ["Foo", "Foo [ABCD]", "Foo [RST]"] =
      Except.ok [("Foo [ABCD]", "Foo"), ("Foo [RST]", "Foo")] ∧
    ∀ (dirNames : List String) (name base : String),
      endsWithRB name = true →
      extractBase name = Except.ok (some base) →
      base ≠ "" →
      base ∈ dirNames →
      (entryOutcome dirNames name = EntryOutcome.warned ↔
        2 < countStarter dirNames base) := by
  constructor
  · rfl
  · intro dirNames name base hEnd hx hb hm
    unfold entryOutcome
    rw [if_pos hEnd, hx]
    simp only [if_neg hb, if_pos hm]
    by_cases hc : 2 < countStarter dirNames base
    · simp [hc]
    · simp only [if_neg hc]
      constructor
      · intro h; exact absurd h (by simp)
      · intro h; exact absurd h hc

/-- Claim C2, witness: with a third bucketed sibling the starter count
is 3 and the entry is skipped with the warning. -/
theorem C2_witness :
    endsWithRB "Foo [ABCD]" = true ∧
    extractBase "Foo [ABCD]" = Except.ok (some "Foo") ∧
    ("Foo" : String) ≠ "" ∧
    "Foo" ∈ ["Foo", "Foo [ABCD]", "Foo [RST]", "Foo [UVWXYZ]"] ∧
    (entryOutcome ["Foo", "Foo [ABCD]", "Foo [RST]", "Foo [UVWXYZ]"] "Foo [ABCD]" =
        EntryOutcome.warned ↔
      2 < countStarter ["Foo", "Foo [ABCD]", "Foo [RST]", "Foo [UVWXYZ]"] "Foo") :=
  ⟨by decide, rfl, by decide, by decide,
   C2_pairs_and_ambiguity.2 ["Foo", "Foo [ABCD]", "Foo [RST]", "Foo [UVWXYZ]"]
     "Foo [ABCD]" "Foo" (by decide) rfl (by decide) (by decide)⟩

/-- Claim C3: when two consecutive collected pairs share the same base
name (the component the duplicate scan inspects — the merge pair's
second component, called the destination by the specification), the
whole operation returns the duplicate error and executes zero merges,
whatever the confirmation line says. -/
theorem C3_duplicate_abort :
    ∀ (dirNames : List String) (input : String) (ps : List (String × String))
      (pre : List (String × String)) (p q : String × String)
      (post : List (String × String)),
      collectPairs dirNames = Except.ok ps →
      ps = pre ++ p :: q :: post →
      p.2 = q.2 →
      mergeSplitRun dirNames input =
        MergeRun.finished [] (OpResult.error "Duplicate folders found") := by
  intro dirNames input ps pre p q post hc hps hpq
  rw [mergeSplitRun_ok input hc]
  have hmap : ps.map (fun p => p.2) =
      pre.map (fun p => p.2) ++ p.2 :: p.2 :: post.map (fun p => p.2) := by
    rw [hps]
    simp [hpq]
  have hne : duplicateList (ps.map (fun p => p.2)) ≠ [] := by
    rw [hmap]
    exact duplicateListAux_ne_nil p.2 (pre.map (fun p => p.2)) (post.map (fun p => p.2)) ""
  rw [if_neg (by simpa [List.isEmpty_iff] using hne)]

/-- Claim C3, witness: the listing of the testable-properties example
collects two pairs with the same base `"Foo"` and the run aborts with
the duplicate error and no merges. -/
theorem C3_witness :
    collectPairs ["Foo", "Foo [ABCD]", "Foo [RST]"] =
      Except.ok [("Foo [ABCD]", "Foo"), ("Foo [RST]", "Foo")] ∧
    (("Foo [ABCD]" : String), ("Foo" : String)).2 = (("Foo [RST]" : String), ("Foo" : String)).2 ∧
    mergeSplitRun ["Foo", "Foo [ABCD]", "Foo [RST]"] "y" =
      MergeRun.finished [] (OpResult.error "Duplicate folders found") :=
  ⟨rfl, rfl,
   C3_duplicate_abort ["Foo", "Foo [ABCD]", "Foo [RST]"] "y"
     [("Foo [ABCD]", "Foo"), ("Foo [RST]", "Foo")] []
     ("Foo [ABCD]", "Foo") ("Foo [RST]", "Foo") [] rfl rfl rfl⟩

/-- Claim C5: the code does NOT skip every troublesome name ending in
`]` — base-name extraction PANICS when the last `[` sits at byte
offset 0 (`bracket_pos - 1` underflows for the child `"[ABCD]"`), and
also when the byte before the last `[` is in the middle of a multi-byte
character (`"あ[X]"`), aborting the whole run instead of skipping. -/
theorem C5_extraction_panics :
    extractBase "[ABCD]" = Except.error () ∧
    extractBase "あ[X]" = Except.error () ∧
    entryOutcome ["Foo", "[ABCD]"] "[ABCD]" = EntryOutcome.panic ∧
    mergeSplitRun ["Foo", "[ABCD]"] "y" = MergeRun.panic :=
  ⟨rfl, rfl, by decide, by decide⟩

theorem find?_decomp {α : Type} (p : α → Bool) :
    ∀ (l : List α) (a : α), l.find? p = some a →
      ∃ l1 l2, l = l1 ++ a :: l2 ∧ (∀ x ∈ l1, p x = false) ∧ p a = true := by
  intro l
  induction l with
  | nil => intro a h; simp [List.find?] at h
  | cons x xs ih =>
    intro a h
    simp only [List.find?] at h
    rcases hp : p x with _ | _ <;> rw [hp] at h
    · have h' : xs.find? p = some a := h
      rcases ih a h' with ⟨l1, l2, hl, hall, hpa⟩
      refine ⟨x :: l1, l2, by rw [hl, List.cons_append], ?_, hpa⟩
      intro y hy
      rcases List.mem_cons.mp hy with rfl | hy
      · exact hp
      · exact hall y hy
    · have h' : some x = some a := h
      injection h' with h'
      subst h'
      exact ⟨[], xs, rfl, by simp, hp⟩

theorem pairSameName_mem {froms tos : List String} {f d : String}
    (h : (f, d) ∈ pairSameName froms tos) :
    f ∈ froms ∧ tos.find? (fun t => strContains t f) = some d := by
  unfold pairSameName at h
  rcases List.mem_filterMap.mp h with ⟨a, ha, hfa⟩
  rcases Option.map_eq_some'.mp hfa with ⟨t, hfind, hpair⟩
  injection hpair with h1 h2
  subst h1
  subst h2
  exact ⟨ha, hfind⟩

/-- Claim C8: the Same-Name Merger pairs each source subfolder with the
first destination subfolder (destination listing order) whose name
contains the source name as a substring; a source contained in no
destination name yields no pair; and the testable-properties example
produces exactly `("Artist A", "Something Artist A Remix")`. -/
theorem C8_same_name_pairing :
    (∀ (froms tos : List String) (f : String),
      (∀ t ∈ tos, strContains t f = false) →
      ∀ d, (f, d) ∉ pairSameName froms tos) ∧
    (∀ (froms tos : List String) (f d : String),
      (f, d) ∈ pairSameName froms tos →
      ∃ l1 l2, tos = l1 ++ d :: l2 ∧ strContains d f = true ∧
        ∀ t ∈ l1, strContains t f = false) ∧
    pairSameName ["Artist A"] ["Something Artist A Remix", "Other"] =
      [("Artist A", "Something Artist A Remix")] := by
  refine ⟨?_, ?_, by decide⟩
  · intro froms tos f hall d hmem
    have hfind := (pairSameName_mem hmem).2
    have hd' := List.find?_some hfind
    have hd : strContains d f = true := hd'
    have hdm := List.mem_of_find?_eq_some hfind
    rw [hall d hdm] at hd
    exact Bool.noConfusion hd
  · intro froms tos f d hmem
    rcases find?_decomp _ tos d (pairSameName_mem hmem).2 with ⟨l1, l2, h1, h2, h3⟩
    exact ⟨l1, l2, h1, h3, h2⟩

/-- Claim C8, witness. -/
theorem C8_witness :
    ("Artist A", "Other") ∉ pairSameName ["Artist A"] ["Other"] ∧
    (∃ l1 l2, (["Something Artist A Remix", "Other"] : List String) =
        l1 ++ "Something Artist A Remix" :: l2 ∧
      strContains "Something Artist A Remix" "Artist A" = true ∧
      ∀ t ∈ l1, strContains t "Artist A" = false) :=
  ⟨C8_same_name_pairing.1 ["Artist A"] ["Other"] "Artist A" (by decide) "Other",
   C8_same_name_pairing.2.1 ["Artist A"] ["Something Artist A Remix", "Other"]
     "Artist A" "Something Artist A Remix" (by decide)⟩

/-- Claim C9: for each confirmation-gated operation (undo-split variant
A, merge variant B once it reaches its prompt, same-name merger), a
confirmation line that does not start with `y` after trimming and
lower-casing yields a successful return with an empty executed-merge
list — nothing is moved or deleted. -/
theorem C9_confirmation_gate :
    ∀ input : String, confirmGate input = false →
      (∀ (rootName : String) (sibs : List String),
        undoSplitRun rootName sibs input = MergeRun.finished [] OpResult.ok) ∧
      (∀ (dirNames : List String) (ps : List (String × String)),
        collectPairs dirNames = Except.ok ps →
        duplicateList (ps.map (fun p => p.2)) = [] →
        mergeSplitRun dirNames input = MergeRun.finished [] OpResult.ok) ∧
      (∀ froms tos : List String,
        sameNameRun froms tos input = MergeRun.finished [] OpResult.ok) := by
  intro input hg
  refine ⟨?_, ?_, ?_⟩
  · intro rootName sibs
    simp only [undoSplitRun]
    split
    · rfl
    · rw [if_neg (by simp [hg])]
  · intro dirNames ps hc hd
    rw [mergeSplitRun_ok input hc, hd]
    simp [hg]
  · intro froms tos
    unfold sameNameRun
    rw [if_neg (by simp [hg])]

/-- Claim C9, witness at the line `"n\n"`. -/
theorem C9_witness :
    confirmGate "n\n" = false ∧
    undoSplitRun "Foo" ["Foo [ABCD]"] "n\n" = MergeRun.finished [] OpResult.ok ∧
    mergeSplitRun ["Foo", "Foo [ABCD]"] "n\n" = MergeRun.finished [] OpResult.ok ∧
    sameNameRun ["Artist A"] ["Artist A HD"] "n\n" = MergeRun.finished [] OpResult.ok :=
  ⟨by decide,
   (C9_confirmation_gate "n\n" (by decide)).1 "Foo" ["Foo [ABCD]"],
   (C9_confirmation_gate "n\n" (by decide)).2.1 ["Foo", "Foo [ABCD]"]
     [("Foo [ABCD]", "Foo")] rfl rfl,
   (C9_confirmation_gate "n\n" (by decide)).2.2 ["Artist A"] ["Artist A HD"]⟩

theorem rulesFind_skip :
    ∀ (l1 l2 : List (String × (String → Bool))) (name : String),
      (∀ r ∈ l1, r.2 name = false) →
      rulesFind (l1 ++ l2) name = rulesFind l2 name := by
  intro l1
  induction l1 with
  | nil => intro l2 name _; rfl
  | cons x xs ih =>
    intro l2 name h
    simp only [List.cons_append, rulesFind]
    rw [if_neg (by simp [h x (List.mem_cons_self x xs)])]
    exact ih l2 name (fun r hr => h r (List.mem_cons_of_mem x hr))

theorem rulesFind_result :
    ∀ (l : List (String × (String → Bool))) (name : String),
      rulesFind l name ∈ l.map (fun r => r.1) ∨
      (rulesFind l name = "Uncategorized" ∧ ∀ r ∈ l, r.2 name = false) := by
  intro l
  induction l with
  | nil =>
    intro name
    exact Or.inr ⟨rfl, fun r hr => absurd hr (List.not_mem_nil r)⟩
  | cons x xs ih =>
    intro name
    simp only [rulesFind, List.map_cons]
    by_cases hx : x.2 name = true
    · rw [if_pos hx]
      exact Or.inl (List.mem_cons_self _ _)
    · rw [if_neg hx]
      rcases ih name with hmem | ⟨hu, hall⟩
      · exact Or.inl (List.mem_cons_of_mem _ hmem)
      · refine Or.inr ⟨hu, ?_⟩
        intro r hr
        rcases List.mem_cons.mp hr with rfl | hr
        · simpa using hx
        · exact hall r hr

/-- Claim C4: the classifier is a total function evaluating the fixed
rule list in order; every name whose first character is an ASCII digit
maps to `"0-9"`; the result is `"Uncategorized"` exactly for the empty
name; and a non-empty name matching none of the nine leading rules maps
to `"+"`. -/
theorem C4_classifier :
    (∀ (s : String) (c : Char), s.data.head? = some c → isAsciiDigit c = true →
      first_char_rules_find s = "0-9") ∧
    (∀ s : String, first_char_rules_find s = "Uncategorized" ↔ s = "") ∧
    (∀ s : String, s ≠ "" →
      (∀ r ∈ FIRST_CHAR_RULES.take 9, r.2 s = false) →
      first_char_rules_find s = "+") := by
  refine ⟨?_, ?_, ?_⟩
  · intro s c hc hd
    have h1 : firstCharTest (fun c => isAsciiDigit c) s = true := by
      simp [firstCharTest, hc, hd]
    simp only [first_char_rules_find, FIRST_CHAR_RULES, rulesFind]
    rw [if_pos h1]
  · intro s
    constructor
    · intro h
      rcases rulesFind_result FIRST_CHAR_RULES s with hmem | ⟨_, hall⟩
      · rw [first_char_rules_find] at h
        rw [h] at hmem
        have hlabels : FIRST_CHAR_RULES.map (fun r => r.1) =
            ["0-9", "ABCD", "EFGHIJK", "LMNOPQ", "RST", "UVWXYZ", "平假", "片假", "字", "+"] := rfl
        rw [hlabels] at hmem
        exact absurd hmem (by decide)
      · have h10 := hall ("+", fun name => !name.data.isEmpty) (by simp [FIRST_CHAR_RULES])
        simp only at h10
        rcases s with ⟨data⟩
        rcases data with _ | ⟨c, cs⟩
        · rfl
        · simp at h10
    · intro h
      rw [h]
      rfl
  · intro s hs h
    rw [first_char_rules_find,
      show FIRST_CHAR_RULES =
        FIRST_CHAR_RULES.take 9 ++ [("+", fun name => !name.data.isEmpty)] from rfl,
      rulesFind_skip _ _ s h]
    simp only [rulesFind]
    rw [if_pos ?hne]
    case hne =>
      rcases s with ⟨data⟩
      rcases data with _ | ⟨c, cs⟩
      · exact absurd rfl hs
      · simp

/-- Claim C4, witness. -/
theorem C4_witness :
    first_char_rules_find "5x" = "0-9" ∧
    (first_char_rules_find "" = "Uncategorized" ↔ ("" : String) = "") ∧
    first_char_rules_find "~" = "+" :=
  ⟨C4_classifier.1 "5x" '5' rfl (by decide),
   C4_classifier.2.1 "",
   C4_classifier.2.2 "~" (by decide) (by intro r hr; fin_cases hr <;> decide)⟩

theorem procLowers_inv (fname : String) (ex : String → Bool) :
    ∀ (lowers : List String) (pairs : List (String × String)) (removed : List String),
      schedInv pairs removed →
      schedInv (procLowers fname ex lowers pairs removed).1
        (procLowers fname ex lowers pairs removed).2 := by
  intro lowers
  induction lowers with
  | nil => intro pairs removed h; exact h
  | cons l rest ih =>
    intro pairs removed h
    simp only [procLowers]
    split
    case isTrue hc =>
      refine ih _ _ ⟨?_, ?_⟩
      · rw [List.map_append]
        simp only [List.map_cons, List.map_nil]
        rw [List.nodup_append]
        refine ⟨h.1, List.nodup_singleton _, ?_⟩
        rw [List.disjoint_singleton]
        intro hin
        exact hc.2 (h.2 _ hin)
      · intro x hx
        rw [List.map_append] at hx
        simp only [List.map_cons, List.map_nil] at hx
        rw [List.mem_append] at hx
        rcases hx with hx | hx
        · exact List.mem_cons_of_mem _ (h.2 x hx)
        · rw [List.mem_singleton.mp hx]
          exact List.mem_cons_self _ _
    case isFalse hc => exact ih _ _ h

theorem procRules_inv (fname : String) (sz : Nat) (ex : String → Bool) :
    ∀ (rules : List (List String × List String))
      (pairs : List (String × String)) (removed : List String),
      schedInv pairs removed →
      schedInv (procRules fname sz ex rules pairs removed).1
        (procRules fname sz ex rules pairs removed).2 := by
  intro rules
  induction rules with
  | nil => intro pairs removed h; exact h
  | cons r rest ih =>
    intro pairs removed h
    rcases r with ⟨uppers, lowers⟩
    simp only [procRules]
    split
    · split
      · exact ih _ _ h
      · exact ih _ _ (procLowers_inv fname ex lowers pairs removed h)
    · exact ih _ _ h

theorem evalDedupAux_inv (rules : List (List String × List String)) (ex : String → Bool) :
    ∀ (files : List (String × Nat))
      (pairs : List (String × String)) (removed : List String),
      schedInv pairs removed →
      schedInv (evalDedupAux rules ex files pairs removed).1
        (evalDedupAux rules ex files pairs removed).2 := by
  intro files
  induction files with
  | nil => intro pairs removed h; exact h
  | cons e rest ih =>
    intro pairs removed h
    rcases e with ⟨n, sz⟩
    simp only [evalDedupAux]
    exact ih _ _ (procRules_inv n sz ex rules pairs removed h)

theorem procLowers_origin (fname : String) (ex : String → Bool) :
    ∀ (lowers : List String) (pairs : List (String × String)) (removed : List String),
      ∀ q ∈ (procLowers fname ex lowers pairs removed).1, q ∈ pairs ∨ q.1 = fname := by
  intro lowers
  induction lowers with
  | nil => intro pairs removed q hq; exact Or.inl hq
  | cons l rest ih =>
    intro pairs removed q hq
    simp only [procLowers] at hq
    split at hq
    · rcases ih _ _ q hq with hmem | hq1
      · rcases List.mem_append.mp hmem with h1 | h1
        · exact Or.inl h1
        · rw [List.mem_singleton.mp h1]
          exact Or.inr rfl
      · exact Or.inr hq1
    · exact ih _ _ q hq

theorem procRules_origin (fname : String) (sz : Nat) (ex : String → Bool) :
    ∀ (rules : List (List String × List String))
      (pairs : List (String × String)) (removed : List String),
      ∀ q ∈ (procRules fname sz ex rules pairs removed).1,
        q ∈ pairs ∨ (q.1 = fname ∧ sz ≠ 0) := by
  intro rules
  induction rules with
  | nil => intro pairs removed q hq; exact Or.inl hq
  | cons r rest ih =>
    intro pairs removed q hq
    rcases r with ⟨uppers, lowers⟩
    simp only [procRules] at hq
    split at hq
    · split at hq
      · exact ih _ _ q hq
      · case isFalse hsz =>
        rcases ih _ _ q hq with hmem | hq1
        · rcases procLowers_origin fname ex lowers pairs removed q hmem with h1 | h1
          · exact Or.inl h1
          · exact Or.inr ⟨h1, hsz⟩
        · exact Or.inr hq1
    · exact ih _ _ q hq

theorem evalDedupAux_origin (rules : List (List String × List String)) (ex : String → Bool) :
    ∀ (files : List (String × Nat))
      (pairs : List (String × String)) (removed : List String),
      ∀ q ∈ (evalDedupAux rules ex files pairs removed).1,
        q ∈ pairs ∨ ∃ e ∈ files, q.1 = e.1 ∧ e.2 ≠ 0 := by
  intro files
  induction files with
  | nil => intro pairs removed q hq; exact Or.inl hq
  | cons e rest ih =>
    intro pairs removed q hq
    rcases e with ⟨n, sz⟩
    simp only [evalDedupAux] at hq
    rcases ih _ _ q hq with hmem | ⟨e, he, h1, h2⟩
    · rcases procRules_origin n sz ex rules pairs removed q hmem with h1 | ⟨h1, h2⟩
      · exact Or.inl h1
      · exact Or.inr ⟨(n, sz), List.mem_cons_self _ _, h1, h2⟩
    · exact Or.inr ⟨e, List.mem_cons_of_mem _ he, h1, h2⟩

/-- Claim C7: in one evaluation pass, each inferior file path appears at
most once in the computed deletion set, for every rule table, listing
and on-disk existence oracle. -/
theorem C7_no_double_schedule :
    ∀ (rules : List (List String × List String)) (files : List (String × Nat))
      (ex : String → Bool),
      ((evalDedup rules files ex).map (fun p => p.2)).Nodup := by
  intro rules files ex
  exact (evalDedupAux_inv rules ex files [] [] ⟨List.nodup_nil, by simp⟩).1

/-- Claim C6: a zero-length file whose extension is in some rule's
superior set contributes nothing to the deletion set — no scheduled
deletion names it as the reason file — for every rule table and every
listing (with the distinct names a directory listing guarantees). -/
theorem C6_zero_superior_no_delete :
    ∀ (rules : List (List String × List String)) (files : List (String × Nat))
      (ex : String → Bool) (n : String),
      (files.map (fun e => e.1)).Nodup →
      (n, 0) ∈ files →
      (∃ r ∈ rules, fileExt n ∈ r.1) →
      ∀ c, (n, c) ∉ evalDedup rules files ex := by
  intro rules files ex n hnd hmem hsup c hq
  rcases evalDedupAux_origin rules ex files [] [] (n, c) hq with h0 | ⟨e, he, h1, h2⟩
  · exact absurd h0 (List.not_mem_nil _)
  · have he2 : e = (n, 0) := List.inj_on_of_nodup_map hnd he hmem h1.symm
    rw [he2] at h2
    exact h2 rfl

/-- Claim C6, witness: the end-to-end scenario with a zero-length
`track.mp4` next to `track.avi` under the `oraja` preset. -/
theorem C6_witness :
    ((([("track.mp4", 0), ("track.avi", 2)] : List (String × Nat)).map (fun e => e.1)).Nodup) ∧
    ("track.mp4", 0) ∈ ([("track.mp4", 0), ("track.avi", 2)] : List (String × Nat)) ∧
    (∃ r ∈ get_remove_media_rule_oraja, fileExt "track.mp4" ∈ r.1) ∧
    ("track.mp4", "track.avi") ∉
      evalDedup get_remove_media_rule_oraja [("track.mp4", 0), ("track.avi", 2)]
        (fun s => s == "track.mp4" || s == "track.avi") :=
  ⟨by decide, by decide, by decide,
   C6_zero_superior_no_delete get_remove_media_rule_oraja
     [("track.mp4", 0), ("track.avi", 2)]
     (fun s => s == "track.mp4" || s == "track.avi") "track.mp4"
     (by decide) (by decide) (by decide) "track.avi"⟩

theorem takeWhile_all {p : Char → Bool} :
    ∀ l : List Char, (∀ c ∈ l, p c = true) → l.takeWhile p = l := by
  intro l
  induction l with
  | nil => intro _; rfl
  | cons c cs ih =>
    intro h
    rw [List.takeWhile_cons_of_pos (h c (List.mem_cons_self c cs))]
    rw [ih (fun a ha => h a (List.mem_cons_of_mem c ha))]

theorem takeWhile_until_stop {p : Char → Bool} :
    ∀ (l1 : List Char) (x : Char) (l2 : List Char),
      (∀ c ∈ l1, p c = true) → p x = false →
      (l1 ++ x :: l2).takeWhile p = l1 := by
  intro l1
  induction l1 with
  | nil =>
    intro x l2 _ hx
    rw [List.nil_append, List.takeWhile_cons_of_neg (by simp [hx])]
  | cons c cs ih =>
    intro x l2 hall hx
    rw [List.cons_append,
      List.takeWhile_cons_of_pos (hall c (List.mem_cons_self c cs)),
      ih x l2 (fun a ha => hall a (List.mem_cons_of_mem c ha)) hx]

theorem rsplitNextDot_nodot (s : List Char) (h : '.' ∉ s) : rsplitNextDot s = s := by
  unfold rsplitNextDot
  rw [takeWhile_all s.reverse ?hall, List.reverse_reverse]
  case hall =>
    intro c hc
    simp only [decide_eq_true_eq]
    intro hcd
    exact h (hcd ▸ List.mem_reverse.mp hc)

theorem rsplitNextDot_split (pre suf : List Char) (h : '.' ∉ suf) :
    rsplitNextDot (pre ++ '.' :: suf) = suf := by
  unfold rsplitNextDot
  rw [List.reverse_append, List.reverse_cons, List.append_assoc,
    List.singleton_append,
    takeWhile_until_stop suf.reverse '.' pre.reverse ?hall (by simp),
    List.reverse_reverse]
  case hall =>
    intro c hc
    simp only [decide_eq_true_eq]
    intro hcd
    exact h (hcd ▸ List.mem_reverse.mp hc)

/-- Claim C10: the evaluator's extension is the substring after the last
`.` of the file name, lowercased, and the whole lowercased name when the
name has no `.`; a file literally named `mp4` therefore gets extension
`"mp4"`, which is in the `oraja` superior sets, drives a scheduled
deletion of its `mp4.avi` counterpart, and is counted by the post-pass
mp4 recount. -/
theorem C10_extension_of_dotless_name :
    (∀ name : String, '.' ∉ name.data →
      fileExt name = String.mk (name.data.map toLowerAsciiChar)) ∧
    (∀ pre suf : List Char, '.' ∉ suf →
      fileExt (String.mk (pre ++ '.' :: suf)) = String.mk (suf.map toLowerAsciiChar)) ∧
    fileExt "mp4" = "mp4" ∧
    (∃ r ∈ get_remove_media_rule_oraja, "mp4" ∈ r.1) ∧
    evalDedup get_remove_media_rule_oraja [("mp4", 1)] (fun s => s == "mp4.avi") =
      [("mp4", "mp4.avi")] ∧
    mp4Files ["mp4", "b.mp4", "c.avi"] = ["mp4", "b.mp4"] := by
  refine ⟨?_, ?_, rfl, by decide, rfl, rfl⟩
  · intro name h
    unfold fileExt
    rw [rsplitNextDot_nodot name.data h]
  · intro pre suf h
    unfold fileExt
    rw [show (String.mk (pre ++ '.' :: suf)).data = pre ++ '.' :: suf from rfl,
      rsplitNextDot_split pre suf h]

/-- Claim C10, witness. -/
theorem C10_witness :
    fileExt "AVI" = String.mk ("AVI".data.map toLowerAsciiChar) ∧
    fileExt (String.mk ("track".data ++ '.' :: "Mp4".data)) =
      String.mk ("Mp4".data.map toLowerAsciiChar) :=
  ⟨C10_extension_of_dotless_name.1 "AVI" (by decide),
   C10_extension_of_dotless_name.2.1 "track".data "Mp4".data (by decide)⟩

end RootBigpack
